import Mathlib

/-!
Verification of the file-level model serializers of `model-transparency`
(`src/model_signing/serialization/serialize_by_file.py`).

Paths are modelled as lists of path components, each component being the
list of bytes of the component's name (UTF-8 code units, each < 256); the
empty list of components is the root marker (`PurePosixPath(".")`, whose
`name` attribute is the empty string).  Digests are an algorithm name
together with raw digest bytes.  Filesystem state is modelled as the list
of nodes visited by the traversal (the model root followed by the paths of
`model_path.glob("**/*")`), each node carrying the flags queried by the
code (`is_symlink`, `is_file`, `is_dir`) and its path relative to the
model root.  The streaming merge-hash engine is modelled by its state: the
list of bytes received through `update` since the last `reset`, with the
final `compute` abstracted as an arbitrary function `H` from byte lists to
digests.
-/

/-- A path relative to the model root: list of components, each a list of
bytes.  The empty list is the root marker (relative path `.`). -/
abbrev RelPath : Type := List (List Nat)

/-- Modelled from the spec: `Digest` (the `model_signing.hashing` module is
not under `src/`): an algorithm identifier and raw digest bytes. -/
structure Digest where
  algorithm : String
  digest_value : List Nat
deriving DecidableEq, Inhabited

/-- Modelled from the spec: `FileManifestItem` (the
`model_signing.manifest` module is not under `src/`): the relative path of
a file within the model root paired with its digest. -/
structure FileManifestItem where
  path : RelPath
  digest : Digest
deriving DecidableEq, Inhabited

/-- Modelled from the spec: `FileLevelManifest` — a collection of
`FileManifestItem`, one per file of the model. -/
structure FileLevelManifest where
  items : List FileManifestItem
deriving DecidableEq

/-- Modelled from the spec: `DigestManifest` — a single digest standing
for the whole model. -/
structure DigestManifest where
  digest : Digest
deriving DecidableEq

/-- Python `PurePosixPath.name`: the final path component, or empty for the root
marker. -/
def pathName (p : RelPath) : List Nat :=
  (p.getLast?).getD []

/-- The byte string `str(path)` of a relative path: components joined by
the `/` byte (0x2F). -/
def pathBytes (p : RelPath) : List Nat :=
  List.intercalate [47] p

/-- The base64 alphabet of `base64.b64encode`: value `0..63` to ASCII. -/
def b64char (n : Nat) : Nat :=
  if n < 26 then 65 + n
  else if n < 52 then 97 + (n - 26)
  else if n < 62 then 48 + (n - 52)
  else if n = 62 then 43
  else 47

/-- Inverse of `b64char` on the alphabet. -/
def b64dchar (c : Nat) : Nat :=
  if 65 ≤ c ∧ c ≤ 90 then c - 65
  else if 97 ≤ c ∧ c ≤ 122 then 26 + (c - 97)
  else if 48 ≤ c ∧ c ≤ 57 then 52 + (c - 48)
  else if c = 43 then 62
  else 63

/-- Python `base64.b64encode` on a byte list: standard base64 with `=` (0x3D)
padding, three input bytes per four output characters. -/
def b64encode : List Nat → List Nat
  | a :: b :: c :: rest =>
      b64char (a / 4) :: b64char (a % 4 * 16 + b / 16) ::
        b64char (b % 16 * 4 + c / 64) :: b64char (c % 64) :: b64encode rest
  | [a, b] => [b64char (a / 4), b64char (a % 4 * 16 + b / 16), b64char (b % 16 * 4), 61]
  | [a] => [b64char (a / 4), b64char (a % 4 * 16), 61, 61]
  | [] => []

/-- Base64 decoding, the left inverse of `b64encode` on byte lists. -/
def b64decode : List Nat → List Nat
  | c1 :: c2 :: c3 :: c4 :: rest =>
      if c3 = 61 then [b64dchar c1 * 4 + b64dchar c2 / 16]
      else if c4 = 61 then
        [b64dchar c1 * 4 + b64dchar c2 / 16,
         b64dchar c2 % 16 * 16 + b64dchar c3 / 4]
      else
        (b64dchar c1 * 4 + b64dchar c2 / 16) ::
          (b64dchar c2 % 16 * 16 + b64dchar c3 / 4) ::
            (b64dchar c3 % 4 * 64 + b64dchar c4) :: b64decode rest
  | _ => []

/-- The function `_build_header`: base64 of the UTF-8 bytes of the entry name, then the
terminating `.` byte — `b".".join([encoded_name, b""])`. -/
def build_header (entry_name : List Nat) : List Nat :=
  b64encode entry_name ++ [46]

/-- CPython sequence comparison: a proper prefix is smaller, and the first
position where the elements differ decides via the element order `lt`. -/
def lexLt {α : Type} (lt : α → α → Bool) : List α → List α → Bool
  | _, [] => false
  | [], _ :: _ => true
  | a :: as, b :: bs => if lt a b then true else if lt b a then false else lexLt lt as bs

/-- Lexicographic strict order on byte lists: CPython `str.__lt__` over
the code units. -/
def bytesLt : List Nat → List Nat → Bool :=
  lexLt (fun a b => a < b)

/-- Lexicographic strict order on component sequences: CPython tuple
comparison of `PurePath._cparts`, the order `sorted` uses on paths. -/
def partsLt : RelPath → RelPath → Bool :=
  lexLt bytesLt

/-- The non-strict order on relative paths induced by `partsLt`:
`p ≤ q` iff `q` is not strictly below `p`. -/
def pathLe (p q : RelPath) : Prop :=
  partsLt q p = false

instance : DecidableRel pathLe :=
  fun p q => instDecidableEqBool (partsLt q p) false

/-- The sort key order of `sorted(items, key=lambda i: i.path)`: item `i`
precedes (or ties with) `j` when `j.path` is not strictly below `i.path`. -/
def itemLe (i j : FileManifestItem) : Prop :=
  pathLe i.path j.path

instance : DecidableRel itemLe :=
  fun i j => instDecidableEqBool (partsLt j.path i.path) false

/-- Python's `sorted` on manifest items (a stable comparison sort). -/
def sortItems (items : List FileManifestItem) : List FileManifestItem :=
  List.insertionSort itemLe items

/-- State of the streaming merge-hash engine: the bytes received through
`update` since the last `reset`. -/
structure StreamState where
  data : List Nat
deriving DecidableEq

/-- The `reset()` call of the merge hasher. -/
def hashReset : StreamState := ⟨[]⟩

/-- The `update(b)` call of the merge hasher. -/
def hashUpdate (s : StreamState) (b : List Nat) : StreamState :=
  ⟨s.data ++ b⟩

/-- The update loop of `DigestSerializer._build_manifest`: for each item,
`update(header)` then `update(digest_value)`. -/
def mergeLoop (s : StreamState) : List FileManifestItem → StreamState
  | [] => s
  | i :: rest =>
      mergeLoop (hashUpdate (hashUpdate s (build_header (pathName i.path))) i.digest.digest_value) rest

/-- The method `DigestSerializer._build_manifest`, with the merge hasher's `compute`
abstracted as `H` applied to the accumulated stream.  If there is exactly
one item and its path has no name, the item's digest is returned verbatim;
otherwise the engine is reset and fed every item in sorted path order. -/
def build_digest_manifest (H : List Nat → Digest) (items : List FileManifestItem) :
    DigestManifest :=
  if items.length = 1 ∧ pathName (items.headI).path = [] then
    ⟨(items.headI).digest⟩
  else
    ⟨H (mergeLoop hashReset (sortItems items)).data⟩

/-- The method `ManifestSerializer._build_manifest`: wrap the items unchanged. -/
def build_file_level_manifest (items : List FileManifestItem) : FileLevelManifest :=
  ⟨items⟩

/-- The byte stream fed to the merge-hash engine when building the
aggregate digest of `items`. -/
def mergeStream (items : List FileManifestItem) : List Nat :=
  (mergeLoop hashReset (sortItems items)).data

/-- The bytes an item contributes to the aggregate stream: its header
followed by its raw digest bytes. -/
def entryBytes (i : FileManifestItem) : List Nat :=
  build_header (pathName i.path) ++ i.digest.digest_value

/-- Encoding of one (basename, digest bytes) pair in the aggregate
stream: the header then the raw digest. -/
def pairBytes (e : List Nat × List Nat) : List Nat :=
  b64encode e.1 ++ 46 :: e.2

/-- The (basename, digest bytes) pairs of a collection, in the order the
aggregate builder feeds them to the merge engine. -/
def sortedPairs (items : List FileManifestItem) : List (List Nat × List Nat) :=
  (sortItems items).map (fun i => (pathName i.path, i.digest.digest_value))

instance exceptDecEq {ε α : Type} [DecidableEq ε] [DecidableEq α] :
    DecidableEq (Except ε α) := fun x y =>
  match x, y with
  | .error a, .error b =>
      if h : a = b then isTrue (by rw [h]) else isFalse (fun hc => h (Except.error.inj hc))
  | .ok a, .ok b =>
      if h : a = b then isTrue (by rw [h]) else isFalse (fun hc => h (Except.ok.inj hc))
  | .error _, .ok _ => isFalse (fun hc => Except.noConfusion hc)
  | .ok _, .error _ => isFalse (fun hc => Except.noConfusion hc)


/-- A filesystem node visited by the traversal (the model root followed by
`model_path.glob("**/*")`), carrying the flags the code queries.  `rel` is
the node's path relative to the model root ([] for the root itself). -/
structure FSNode where
  rel : RelPath
  is_symlink : Bool
  is_file : Bool
  is_dir : Bool
deriving DecidableEq, Inhabited

/-- The two failure messages of `check_file_or_directory`. -/
inductive PathError where
  | symlinkNotAllowed : PathError
  | notFileOrDirectory : PathError
deriving DecidableEq

/-- The validator `check_file_or_directory`: raise on a symlink unless allowed, raise on
anything that is neither file nor directory, otherwise return nothing. -/
def check_file_or_directory (n : FSNode) (allow_symlinks : Bool) :
    Except PathError Unit :=
  if !allow_symlinks && n.is_symlink then .error .symlinkNotAllowed
  else if !(n.is_file || n.is_dir) then .error .notFileOrDirectory
  else .ok ()

/-- Python `PurePath.is_relative_to`: for the relative paths we model, the
candidate is at or beneath `base` iff `base`'s components are a prefix of
the candidate's components. -/
def relativeTo (p base : RelPath) : Bool :=
  base.isPrefixOf p

/-- The filter `_ignored`: whether some ignore path contains `p`. -/
def ignoredPath (p : RelPath) (ignore_paths : List RelPath) : Bool :=
  ignore_paths.any (fun ip => relativeTo p ip)

/-- The path-collection loop of `FilesSerializer.serialize`: every visited
node is validated; files that are not ignored are collected, in traversal
order.  The first validation failure aborts the loop. -/
def collectPaths (allow_symlinks : Bool) (ignore_paths : List RelPath) :
    List FSNode → Except PathError (List RelPath)
  | [] => .ok []
  | n :: rest =>
      match check_file_or_directory n allow_symlinks with
      | .error e => .error e
      | .ok _ =>
          match collectPaths allow_symlinks ignore_paths rest with
          | .error e => .error e
          | .ok ps =>
              .ok (if n.is_file && !ignoredPath n.rel ignore_paths then n.rel :: ps else ps)

/-- The hashing phase of `FilesSerializer.serialize`: each collected path
is hashed (`_compute_hash`), any failure propagating; item order stands in
for one completion order of the thread pool. -/
def computeHashes (hasher : RelPath → Except String Digest) :
    List RelPath → Except String (List FileManifestItem)
  | [] => .ok []
  | p :: ps =>
      match hasher p with
      | .error e => .error e
      | .ok d =>
          match computeHashes hasher ps with
          | .error e => .error e
          | .ok items => .ok (⟨p, d⟩ :: items)

/-- The errors `FilesSerializer.serialize` can propagate. -/
inductive SerializeError where
  | invalidPath : PathError → SerializeError
  | hashFailure : String → SerializeError
deriving DecidableEq

/-- The method `FilesSerializer.serialize` up to `_build_manifest`: validate and
collect every path under the model root, then hash every collected file. -/
def serializeItems (allow_symlinks : Bool) (hasher : RelPath → Except String Digest)
    (tree : List FSNode) (ignore_paths : List RelPath) :
    Except SerializeError (List FileManifestItem) :=
  match collectPaths allow_symlinks ignore_paths tree with
  | .error e => .error (.invalidPath e)
  | .ok ps =>
      match computeHashes hasher ps with
      | .error e => .error (.hashFailure e)
      | .ok items => .ok items

/-- The method `ManifestSerializer.serialize`. -/
def manifest_serialize (allow_symlinks : Bool) (hasher : RelPath → Except String Digest)
    (tree : List FSNode) (ignore_paths : List RelPath) :
    Except SerializeError FileLevelManifest :=
  (serializeItems allow_symlinks hasher tree ignore_paths).map build_file_level_manifest

/-- The method `DigestSerializer.serialize`, with the merge hasher's `compute`
abstracted as `H`. -/
def digest_serialize (allow_symlinks : Bool) (hasher : RelPath → Except String Digest)
    (H : List Nat → Digest) (tree : List FSNode) (ignore_paths : List RelPath) :
    Except SerializeError DigestManifest :=
  (serializeItems allow_symlinks hasher tree ignore_paths).map (build_digest_manifest H)

/-- The relative paths of the eligible files of a traversal: regular files
that no ignore path contains. -/
def eligiblePaths (ignore_paths : List RelPath) (tree : List FSNode) : List RelPath :=
  (tree.filter (fun n => n.is_file && !ignoredPath n.rel ignore_paths)).map FSNode.rel

section LexOrder

variable {α : Type} (lt : α → α → Bool)

theorem lexLt_nil_right : ∀ (a : List α), lexLt lt a [] = false := by
  intro a
  cases a <;> rfl

theorem lexLt_nil_cons (b : α) (bs : List α) : lexLt lt [] (b :: bs) = true := rfl

theorem lexLt_cons_cons (x y : α) (xs ys : List α) :
    lexLt lt (x :: xs) (y :: ys) =
      if lt x y then true else if lt y x then false else lexLt lt xs ys := rfl

variable (hirr : ∀ a : α, lt a a = false)
variable (htrans : ∀ a b c : α, lt a b = true → lt b c = true → lt a c = true)
variable (hconn : ∀ a b : α, lt a b = false → lt b a = false → a = b)

include hirr in
theorem lexLt_irrefl : ∀ (a : List α), lexLt lt a a = false
  | [] => rfl
  | x :: xs => by
      rw [lexLt_cons_cons, if_neg, if_neg]
      · exact lexLt_irrefl xs
      · simp [hirr x]
      · simp [hirr x]

include hconn in
theorem lexLt_conn : ∀ (a b : List α),
    lexLt lt a b = false → lexLt lt b a = false → a = b := by
  intro a
  induction a with
  | nil =>
      intro b hab _
      cases b with
      | nil => rfl
      | cons y ys => rw [lexLt_nil_cons] at hab; exact absurd hab (by simp)
  | cons x xs ih =>
      intro b hab hba
      cases b with
      | nil => rw [lexLt_nil_cons] at hba; exact absurd hba (by simp)
      | cons y ys =>
          rw [lexLt_cons_cons] at hab hba
          cases hxy : lt x y
          · cases hyx : lt y x
            · rw [hxy, hyx] at hab hba
              simp only [Bool.false_eq_true, if_false] at hab hba
              rw [hconn x y hxy hyx, ih ys hab hba]
            · rw [hxy, hyx] at hba
              simp at hba
          · rw [hxy] at hab
            simp at hab

include htrans hconn in
theorem lexLt_trans : ∀ (a b c : List α),
    lexLt lt a b = true → lexLt lt b c = true → lexLt lt a c = true := by
  intro a
  induction a with
  | nil =>
      intro b c hab hbc
      cases c with
      | nil => rw [lexLt_nil_right] at hbc; exact absurd hbc (by simp)
      | cons z zs => exact lexLt_nil_cons lt z zs
  | cons x xs ih =>
      intro b c hab hbc
      cases b with
      | nil => rw [lexLt_nil_right] at hab; exact absurd hab (by simp)
      | cons y ys =>
          cases c with
          | nil => rw [lexLt_nil_right] at hbc; exact absurd hbc (by simp)
          | cons z zs =>
              rw [lexLt_cons_cons] at hab hbc ⊢
              cases hxy : lt x y
              · cases hyx : lt y x
                · obtain rfl := hconn x y hxy hyx
                  rw [hxy] at hab
                  simp only [Bool.false_eq_true, if_false] at hab
                  cases hxz : lt x z
                  · cases hzx : lt z x
                    · rw [hxz, hzx] at hbc
                      simp only [Bool.false_eq_true, if_false] at hbc ⊢
                      exact ih ys zs hab hbc
                    · rw [hxz, hzx] at hbc
                      simp at hbc
                  · simp
                · rw [hxy, hyx] at hab
                  simp at hab
              · cases hyz : lt y z
                · cases hzy : lt z y
                  · obtain rfl := hconn y z hyz hzy
                    rw [if_pos hxy]
                  · rw [hyz, hzy] at hbc
                    simp at hbc
                · rw [if_pos (htrans x y z hxy hyz)]

include hirr htrans hconn in
theorem lexLt_asymm (a b : List α) (h : lexLt lt a b = true) : lexLt lt b a = false := by
  cases hba : lexLt lt b a
  · rfl
  · have h2 := lexLt_trans lt htrans hconn a b a h hba
    rw [lexLt_irrefl lt hirr a] at h2
    exact absurd h2 (by simp)

end LexOrder

theorem byteLt_irrefl (a : Nat) : (decide (a < a)) = false := by simp

theorem byteLt_trans (a b c : Nat) :
    decide (a < b) = true → decide (b < c) = true → decide (a < c) = true := by
  simp only [decide_eq_true_eq]
  omega

theorem byteLt_conn (a b : Nat) :
    decide (a < b) = false → decide (b < a) = false → a = b := by
  simp only [decide_eq_false_iff_not]
  omega

theorem bytesLt_irrefl (a : List Nat) : bytesLt a a = false :=
  lexLt_irrefl _ byteLt_irrefl a

theorem bytesLt_trans (a b c : List Nat) :
    bytesLt a b = true → bytesLt b c = true → bytesLt a c = true :=
  lexLt_trans _ byteLt_trans byteLt_conn a b c

theorem bytesLt_conn (a b : List Nat) :
    bytesLt a b = false → bytesLt b a = false → a = b :=
  lexLt_conn _ byteLt_conn a b

theorem bytesLt_asymm (a b : List Nat) (h : bytesLt a b = true) : bytesLt b a = false :=
  lexLt_asymm _ byteLt_irrefl byteLt_trans byteLt_conn a b h

theorem partsLt_irrefl (p : RelPath) : partsLt p p = false :=
  lexLt_irrefl _ bytesLt_irrefl p

theorem partsLt_trans (p q r : RelPath) :
    partsLt p q = true → partsLt q r = true → partsLt p r = true :=
  lexLt_trans _ bytesLt_trans bytesLt_conn p q r

theorem partsLt_conn (p q : RelPath) :
    partsLt p q = false → partsLt q p = false → p = q :=
  lexLt_conn _ bytesLt_conn p q

theorem partsLt_asymm (p q : RelPath) (h : partsLt p q = true) : partsLt q p = false :=
  lexLt_asymm _ bytesLt_irrefl bytesLt_trans bytesLt_conn p q h

theorem pathLe_isTotal : IsTotal RelPath pathLe :=
  ⟨fun p q => by
    cases h : partsLt q p
    · exact Or.inl h
    · exact Or.inr (partsLt_asymm q p h)⟩

theorem pathLe_isTrans : IsTrans RelPath pathLe :=
  ⟨fun p q r hpq hqr => by
    have h1 : partsLt q p = false := hpq
    have h2 : partsLt r q = false := hqr
    show partsLt r p = false
    cases h : partsLt r p
    · rfl
    · cases hq : partsLt q r
      · cases hq2 : partsLt r q
        · obtain rfl := partsLt_conn q r hq hq2
          rw [h1] at h
          exact absurd h (by simp)
        · rw [h2] at hq2
          exact absurd hq2 (by simp)
      · have h3 := partsLt_trans q r p hq h
        rw [h1] at h3
        exact absurd h3 (by simp)⟩

theorem pathLe_isAntisymm : IsAntisymm RelPath pathLe :=
  ⟨fun p q hpq hqp => partsLt_conn p q hqp hpq⟩

theorem itemLe_isTotal : IsTotal FileManifestItem itemLe :=
  ⟨fun i j => pathLe_isTotal.total i.path j.path⟩

theorem itemLe_isTrans : IsTrans FileManifestItem itemLe :=
  ⟨fun i j k hij hjk => pathLe_isTrans.trans i.path j.path k.path hij hjk⟩

/-- A permutation with equal, duplicate-free images under `f` is an
equality: each element is identified by its `f`-image. -/
theorem eq_of_perm_of_map_eq {α β : Type} (f : α → β) :
    ∀ (l1 l2 : List α), l1.Perm l2 → l1.map f = l2.map f → (l1.map f).Nodup → l1 = l2 := by
  intro l1
  induction l1 with
  | nil =>
      intro l2 hp _ _
      exact hp.nil_eq
  | cons a t ih =>
      intro l2 hp hm hnd
      cases l2 with
      | nil => exact absurd hp.symm.nil_eq (by simp)
      | cons b t2 =>
          simp only [List.map_cons, List.cons.injEq] at hm
          obtain ⟨hfab, hmt⟩ := hm
          simp only [List.map_cons, List.nodup_cons] at hnd
          obtain ⟨hnotin, hndt⟩ := hnd
          have hmem : a ∈ b :: t2 := hp.mem_iff.mp (List.mem_cons_self a t)
          rcases List.mem_cons.mp hmem with rfl | hat2
          · exact congrArg (List.cons a) (ih t2 hp.cons_inv hmt hndt)
          · exact absurd (hmt ▸ List.mem_map_of_mem f hat2) hnotin

/-- Sorting by path is a function of the multiset of items whenever the
paths are duplicate-free: any two permuted inputs sort identically. -/
theorem sortItems_perm_eq (l1 l2 : List FileManifestItem) (hp : l1.Perm l2)
    (hnd : (l1.map FileManifestItem.path).Nodup) :
    sortItems l1 = sortItems l2 := by
  haveI := pathLe_isAntisymm
  haveI := itemLe_isTotal
  haveI := itemLe_isTrans
  have hs1 : List.Sorted itemLe (sortItems l1) := List.sorted_insertionSort itemLe l1
  have hs2 : List.Sorted itemLe (sortItems l2) := List.sorted_insertionSort itemLe l2
  have hperm : (sortItems l1).Perm (sortItems l2) :=
    (List.perm_insertionSort itemLe l1).trans (hp.trans (List.perm_insertionSort itemLe l2).symm)
  have hmapperm : ((sortItems l1).map FileManifestItem.path).Perm
      ((sortItems l2).map FileManifestItem.path) := hperm.map _
  have hms1 : List.Sorted pathLe ((sortItems l1).map FileManifestItem.path) :=
    List.Pairwise.map _ (fun a b h => h) hs1
  have hms2 : List.Sorted pathLe ((sortItems l2).map FileManifestItem.path) :=
    List.Pairwise.map _ (fun a b h => h) hs2
  have hmapeq : (sortItems l1).map FileManifestItem.path =
      (sortItems l2).map FileManifestItem.path :=
    List.eq_of_perm_of_sorted hmapperm hms1 hms2
  have hnd1 : ((sortItems l1).map FileManifestItem.path).Nodup := by
    have hmp : ((sortItems l1).map FileManifestItem.path).Perm
        (l1.map FileManifestItem.path) := (List.perm_insertionSort itemLe l1).map _
    exact hmp.nodup_iff.mpr hnd
  exact eq_of_perm_of_map_eq _ _ _ hperm hmapeq hnd1

/-- C1: for items with duplicate-free relative paths (as collected from a
directory model, where each file appears once), `_build_manifest` of the
aggregate-digest serializer is invariant under permutation of the
collected items: any two completion orders produce the same
`DigestManifest`. -/
theorem digest_manifest_perm_invariant (H : List Nat → Digest)
    (l1 l2 : List FileManifestItem) (hp : l1.Perm l2)
    (hnd : (l1.map FileManifestItem.path).Nodup) :
    build_digest_manifest H l1 = build_digest_manifest H l2 := by
  by_cases h1 : l1.length = 1
  · obtain ⟨a, rfl⟩ := List.length_eq_one.mp h1
    obtain rfl : l2 = [a] := List.perm_singleton.mp hp.symm
    rfl
  · have h2 : l2.length ≠ 1 := by
      rw [← hp.length_eq]
      exact h1
    unfold build_digest_manifest
    rw [if_neg (fun hc => h1 hc.1), if_neg (fun hc => h2 hc.1),
      sortItems_perm_eq l1 l2 hp hnd]

/-- Witness for C1 at a concrete pair of permuted item lists. -/
theorem digest_manifest_perm_invariant_witness :
    build_digest_manifest (fun l => ⟨"sha256", l⟩)
        [⟨[[97]], ⟨"sha256", [1]⟩⟩, ⟨[[98]], ⟨"sha256", [2]⟩⟩] =
      build_digest_manifest (fun l => ⟨"sha256", l⟩)
        [⟨[[98]], ⟨"sha256", [2]⟩⟩, ⟨[[97]], ⟨"sha256", [1]⟩⟩] :=
  digest_manifest_perm_invariant (fun l => ⟨"sha256", l⟩)
    [⟨[[97]], ⟨"sha256", [1]⟩⟩, ⟨[[98]], ⟨"sha256", [2]⟩⟩]
    [⟨[[98]], ⟨"sha256", [2]⟩⟩, ⟨[[97]], ⟨"sha256", [1]⟩⟩]
    (List.Perm.swap _ _ _) (by decide)

/-- C2: a single collected item whose relative path is the root marker
(the model is one file) yields that file's digest verbatim: no header is
fed to the merge engine and the merge hash is never applied. -/
theorem single_file_digest_verbatim (H : List Nat → Digest) (d : Digest) :
    build_digest_manifest H [⟨[], d⟩] = ⟨d⟩ := rfl

/-- The update loop accumulates exactly the concatenation of each item's
header and digest bytes, in the order the items are traversed. -/
theorem mergeLoop_data : ∀ (items : List FileManifestItem) (s : StreamState),
    (mergeLoop s items).data = s.data ++ items.flatMap entryBytes
  | [], s => by simp [mergeLoop]
  | i :: rest, s => by
      rw [mergeLoop, mergeLoop_data rest]
      simp [hashUpdate, entryBytes]

/-- C4: for a multi-item collection, the aggregate digest is the merge
hash of the concatenation header-1, digest-1, header-2, digest-2, … over
the items in sorted path order, each header being the base64 of the
basename followed by the single dot byte 0x2E. -/
theorem aggregate_stream_shape (H : List Nat → Digest)
    (items : List FileManifestItem) (h : 2 ≤ items.length) :
    build_digest_manifest H items =
      ⟨H ((sortItems items).flatMap
        (fun i => b64encode (pathName i.path) ++ 46 :: i.digest.digest_value))⟩ := by
  unfold build_digest_manifest
  rw [if_neg (fun hc => by rw [hc.1] at h; exact absurd h (by simp))]
  rw [mergeLoop_data]
  have hfe : entryBytes =
      fun i => b64encode (pathName i.path) ++ 46 :: i.digest.digest_value := by
    funext i
    simp [entryBytes, build_header]
  rw [hfe]
  simp [hashReset]

/-- Witness for C4 at a two-item collection. -/
theorem aggregate_stream_shape_witness :
    build_digest_manifest (fun l => ⟨"sha256", l⟩)
        [⟨[[98]], ⟨"sha256", [2]⟩⟩, ⟨[[97]], ⟨"sha256", [1]⟩⟩] =
      ⟨(fun l => (⟨"sha256", l⟩ : Digest))
        ((sortItems [⟨[[98]], ⟨"sha256", [2]⟩⟩, ⟨[[97]], ⟨"sha256", [1]⟩⟩]).flatMap
          (fun i => b64encode (pathName i.path) ++ 46 :: i.digest.digest_value))⟩ :=
  aggregate_stream_shape (fun l => ⟨"sha256", l⟩)
    [⟨[[98]], ⟨"sha256", [2]⟩⟩, ⟨[[97]], ⟨"sha256", [1]⟩⟩] (by decide)

/-- C8 counterexample: `sorted` compares paths componentwise (the tuple of
parts), not by the byte order of the slash-joined path string.  The string
form of `a!c` precedes that of `a/b` bytewise (0x21 < 0x2F), yet the
serializer feeds `a/b` first. -/
theorem sort_order_not_string_order :
    bytesLt (pathBytes [[97, 33, 99]]) (pathBytes [[97], [98]]) = true ∧
    (sortItems [⟨[[97, 33, 99]], ⟨"sha256", [1]⟩⟩, ⟨[[97], [98]], ⟨"sha256", [2]⟩⟩]).map
      FileManifestItem.path = [[[97], [98]], [[97, 33, 99]]] :=
  ⟨by decide, by decide⟩

/-- C8 amended: the feed order is ascending lexicographic over the
sequences of path components (components compared bytewise): the sorted
items are a permutation of the input, pairwise ordered by the componentwise
path order, and the merge engine receives their entries in exactly that
order.  On the spec's example this coincides with string order:
`a.txt` sorts before `sub/b.txt`. -/
theorem aggregate_feed_order (items : List FileManifestItem) :
    (sortItems items).Perm items ∧
    List.Sorted itemLe (sortItems items) ∧
    mergeStream items = (sortItems items).flatMap entryBytes ∧
    pathLe [[97, 46, 116, 120, 116]] [[115, 117, 98], [98, 46, 116, 120, 116]] := by
  haveI := itemLe_isTotal
  haveI := itemLe_isTrans
  exact ⟨List.perm_insertionSort itemLe items,
    List.sorted_insertionSort itemLe items,
    by rw [mergeStream, mergeLoop_data]; rfl,
    by decide⟩

theorem b64char_ne_46 (n : Nat) : b64char n ≠ 46 := by
  unfold b64char
  repeat' split
  all_goals omega

theorem b64char_ne_61 (n : Nat) : b64char n ≠ 61 := by
  unfold b64char
  repeat' split
  all_goals omega

theorem b64char_roundtrip : ∀ v, v < 64 → b64dchar (b64char v) = v := by decide

/-- The dot byte 0x2E never occurs in a base64 encoding: the alphabet and
the padding character exclude it.  This is what makes the header's
terminating dot unambiguous. -/
theorem b64encode_no_dot : ∀ (l : List Nat), 46 ∉ b64encode l
  | [] => by simp [b64encode]
  | [a] => by
      intro hmem
      simp only [b64encode, List.mem_cons, List.not_mem_nil, or_false] at hmem
      rcases hmem with h | h | h | h
      · exact b64char_ne_46 _ h.symm
      · exact b64char_ne_46 _ h.symm
      · omega
      · omega
  | [a, b] => by
      intro hmem
      simp only [b64encode, List.mem_cons, List.not_mem_nil, or_false] at hmem
      rcases hmem with h | h | h | h
      · exact b64char_ne_46 _ h.symm
      · exact b64char_ne_46 _ h.symm
      · exact b64char_ne_46 _ h.symm
      · omega
  | a :: b :: c :: rest => by
      intro hmem
      simp only [b64encode, List.mem_cons] at hmem
      rcases hmem with h | h | h | h | h
      · exact b64char_ne_46 _ h.symm
      · exact b64char_ne_46 _ h.symm
      · exact b64char_ne_46 _ h.symm
      · exact b64char_ne_46 _ h.symm
      · exact b64encode_no_dot rest h

/-- Base64 decoding inverts base64 encoding on byte lists. -/
theorem b64decode_encode : ∀ (l : List Nat), (∀ x ∈ l, x < 256) → b64decode (b64encode l) = l
  | [], _ => rfl
  | [a], h => by
      have ha : a < 256 := h a (by simp)
      simp only [b64encode, b64decode, if_pos]
      rw [b64char_roundtrip _ (by omega), b64char_roundtrip _ (by omega)]
      simp only [List.cons.injEq, and_true]
      omega
  | [a, b], h => by
      have ha : a < 256 := h a (by simp)
      have hb : b < 256 := h b (by simp)
      simp only [b64encode, b64decode]
      rw [if_neg (b64char_ne_61 _)]
      simp only [if_true]
      rw [b64char_roundtrip _ (by omega), b64char_roundtrip _ (by omega),
        b64char_roundtrip _ (by omega)]
      simp only [List.cons.injEq, and_true]
      constructor
      · omega
      · omega
  | a :: b :: c :: rest, h => by
      have ha : a < 256 := h a (by simp)
      have hb : b < 256 := h b (by simp)
      have hc : c < 256 := h c (by simp)
      simp only [b64encode, b64decode]
      rw [if_neg (b64char_ne_61 _), if_neg (b64char_ne_61 _)]
      rw [b64char_roundtrip _ (by omega), b64char_roundtrip _ (by omega),
        b64char_roundtrip _ (by omega), b64char_roundtrip _ (by omega)]
      refine List.cons_eq_cons.mpr ⟨by omega, List.cons_eq_cons.mpr ⟨by omega,
        List.cons_eq_cons.mpr ⟨by omega, ?rest⟩⟩⟩
      exact b64decode_encode rest (fun x hx => h x (by simp [hx]))

/-- Base64 encoding is injective on byte lists. -/
theorem b64encode_inj (l1 l2 : List Nat) (h1 : ∀ x ∈ l1, x < 256) (h2 : ∀ x ∈ l2, x < 256)
    (he : b64encode l1 = b64encode l2) : l1 = l2 := by
  rw [← b64decode_encode l1 h1, ← b64decode_encode l2 h2, he]

/-- Splitting a byte list at a dot that occurs in neither prefix is
unambiguous. -/
theorem dot_split_inj : ∀ (a b x y : List Nat), 46 ∉ a → 46 ∉ b →
    a ++ 46 :: x = b ++ 46 :: y → a = b ∧ x = y
  | [], [], x, y, _, _, h => ⟨rfl, by simpa using h⟩
  | [], c :: b, x, y, _, hb, h => by
      simp only [List.nil_append, List.cons_append, List.cons.injEq] at h
      exact absurd (by rw [← h.1]; exact List.mem_cons_self _ _) hb
  | c :: a, [], x, y, ha, _, h => by
      simp only [List.nil_append, List.cons_append, List.cons.injEq] at h
      exact absurd (by rw [h.1]; exact List.mem_cons_self _ _) ha
  | c :: a, d :: b, x, y, ha, hb, h => by
      simp only [List.cons_append, List.cons.injEq] at h
      obtain ⟨rfl, h2⟩ := h
      obtain ⟨hab, hxy⟩ := dot_split_inj a b x y
        (fun hm => ha (List.mem_cons_of_mem _ hm))
        (fun hm => hb (List.mem_cons_of_mem _ hm)) h2
      exact ⟨by rw [hab], hxy⟩

/-- A concatenation of header/digest blocks determines its blocks, for
basenames of bytes and digests of one common length: the first dot ends
the base64 region (which never contains a dot), and the fixed digest
length delimits the digest bytes. -/
theorem pair_chain_inj (L : Nat) : ∀ (ps qs : List (List Nat × List Nat)),
    (∀ e ∈ ps, (∀ b ∈ e.1, b < 256) ∧ e.2.length = L) →
    (∀ e ∈ qs, (∀ b ∈ e.1, b < 256) ∧ e.2.length = L) →
    ps.flatMap pairBytes = qs.flatMap pairBytes → ps = qs
  | [], [], _, _, _ => rfl
  | [], q :: qs, _, _, h => by
      simp only [List.flatMap_nil, List.flatMap_cons, pairBytes] at h
      have hlen := congrArg List.length h
      simp [List.length_append] at hlen
      omega
  | p :: ps, [], _, _, h => by
      simp only [List.flatMap_nil, List.flatMap_cons, pairBytes] at h
      have hlen := congrArg List.length h
      simp [List.length_append] at hlen
  | p :: ps, q :: qs, hp, hq, h => by
      obtain ⟨p1, p2⟩ := p
      obtain ⟨q1, q2⟩ := q
      have hp1 := hp ⟨p1, p2⟩ (by simp)
      have hq1 := hq ⟨q1, q2⟩ (by simp)
      simp only [List.flatMap_cons, pairBytes, List.append_assoc, List.cons_append] at h
      obtain ⟨hhead, htail⟩ :=
        dot_split_inj _ _ _ _ (b64encode_no_dot p1) (b64encode_no_dot q1) h
      obtain rfl := b64encode_inj p1 q1 hp1.1 hq1.1 hhead
      obtain ⟨rfl, hrest⟩ := List.append_inj htail (by rw [hp1.2, hq1.2])
      rw [pair_chain_inj L ps qs (fun e he => hp e (List.mem_cons_of_mem _ he))
        (fun e he => hq e (List.mem_cons_of_mem _ he)) hrest]

/-- The aggregate stream is the block encoding of the sorted pairs. -/
theorem mergeStream_eq_pairs (items : List FileManifestItem) :
    mergeStream items = (sortedPairs items).flatMap pairBytes := by
  rw [mergeStream, mergeLoop_data, sortedPairs, List.flatMap_map]
  have hfe : entryBytes = fun i : FileManifestItem =>
      pairBytes (pathName i.path, i.digest.digest_value) := by
    funext i
    simp [entryBytes, pairBytes, build_header]
  rw [hfe]
  simp [hashReset]

/-- C3 (amended): for collections whose basenames are byte strings and
whose digests share one fixed length, the byte stream fed to the merge
engine determines the path-sorted sequence of (basename, digest) pairs:
two collections with different sorted basename/digest sequences feed
different streams.  Distinct trees whose sorted basename/digest sequences
agree — e.g. same-named files at different depths — are not separated. -/
theorem aggregate_stream_determines_pairs (L : Nat) (items1 items2 : List FileManifestItem)
    (h1 : ∀ i ∈ items1, (∀ b ∈ pathName i.path, b < 256) ∧ i.digest.digest_value.length = L)
    (h2 : ∀ i ∈ items2, (∀ b ∈ pathName i.path, b < 256) ∧ i.digest.digest_value.length = L)
    (heq : mergeStream items1 = mergeStream items2) :
    sortedPairs items1 = sortedPairs items2 := by
  rw [mergeStream_eq_pairs, mergeStream_eq_pairs] at heq
  refine pair_chain_inj L _ _ ?mem1 ?mem2 heq
  · intro e he
    obtain ⟨i, hi, rfl⟩ := List.mem_map.mp he
    exact h1 i ((List.perm_insertionSort itemLe items1).mem_iff.mp hi)
  · intro e he
    obtain ⟨i, hi, rfl⟩ := List.mem_map.mp he
    exact h2 i ((List.perm_insertionSort itemLe items2).mem_iff.mp hi)

/-- Witness for the amended C3 theorem at a concrete collection. -/
theorem aggregate_stream_determines_pairs_witness :
    sortedPairs [⟨[[97]], ⟨"sha256", [5]⟩⟩] = sortedPairs [⟨[[97]], ⟨"sha256", [5]⟩⟩] :=
  aggregate_stream_determines_pairs 1 [⟨[[97]], ⟨"sha256", [5]⟩⟩] [⟨[[97]], ⟨"sha256", [5]⟩⟩]
    (by decide) (by decide) rfl

/-- C3 counterexample: two distinct directory models — single entries
named `x/a` and `y/a`, same digest — feed the merge engine identical byte
streams, because the header carries only the base name. -/
theorem basename_collision :
    (⟨[[120], [97]], ⟨"sha256", [0]⟩⟩ : FileManifestItem) ≠
      ⟨[[121], [97]], ⟨"sha256", [0]⟩⟩ ∧
    mergeStream [⟨[[120], [97]], ⟨"sha256", [0]⟩⟩] =
      mergeStream [⟨[[121], [97]], ⟨"sha256", [0]⟩⟩] :=
  ⟨by decide, by decide⟩

/-- C5: the path gate fails exactly when the path is a disallowed symlink
or neither a regular file nor a directory, and otherwise returns nothing:
silent success is precisely the complement of the two failure conditions. -/
theorem check_path_gate (n : FSNode) (allow_symlinks : Bool) :
    (check_file_or_directory n allow_symlinks = .ok () ↔
      ¬((n.is_symlink = true ∧ allow_symlinks = false) ∨
        (n.is_file = false ∧ n.is_dir = false))) ∧
    ((∃ e, check_file_or_directory n allow_symlinks = .error e) ↔
      (n.is_symlink = true ∧ allow_symlinks = false) ∨
        (n.is_file = false ∧ n.is_dir = false)) := by
  obtain ⟨rel, sl, fi, di⟩ := n
  cases sl <;> cases fi <;> cases di <;> cases allow_symlinks <;>
    simp [check_file_or_directory]

/-- A path failing either gate condition makes the gate raise. -/
theorem check_error_of_bad (n : FSNode) (allow_symlinks : Bool)
    (hbad : (n.is_symlink = true ∧ allow_symlinks = false) ∨
      (n.is_file = false ∧ n.is_dir = false)) :
    ∃ e, check_file_or_directory n allow_symlinks = .error e := by
  obtain ⟨rel, sl, fi, di⟩ := n
  cases sl <;> cases fi <;> cases di <;> cases allow_symlinks <;>
    simp_all [check_file_or_directory]

/-- A successful collection loop has validated every visited node. -/
theorem collectPaths_ok_checks (allow : Bool) (ignore : List RelPath) :
    ∀ (tree : List FSNode) (ps : List RelPath),
      collectPaths allow ignore tree = .ok ps →
      ∀ n ∈ tree, check_file_or_directory n allow = .ok () := by
  intro tree
  induction tree with
  | nil => intro ps _ n hn; exact absurd hn (by simp)
  | cons m rest ih =>
      intro ps h n hn
      rw [collectPaths] at h
      cases hc : check_file_or_directory m allow with
      | error e => rw [hc] at h; simp at h
      | ok u =>
          cases u
          rw [hc] at h
          simp only [] at h
          cases hrec : collectPaths allow ignore rest with
          | error e => rw [hrec] at h; simp at h
          | ok ps0 =>
              rcases List.mem_cons.mp hn with rfl | hn2
              · exact hc
              · exact ih ps0 hrec n hn2

/-- When every visited node passes validation, the collection loop
succeeds and collects exactly the eligible files, in traversal order. -/
theorem collectPaths_all_ok (allow : Bool) (ignore : List RelPath) :
    ∀ (tree : List FSNode),
      (∀ n ∈ tree, check_file_or_directory n allow = .ok ()) →
      collectPaths allow ignore tree = .ok (eligiblePaths ignore tree) := by
  intro tree
  induction tree with
  | nil => intro _; rfl
  | cons m rest ih =>
      intro hok
      rw [collectPaths, hok m (by simp), ih (fun n hn => hok n (by simp [hn]))]
      simp only [eligiblePaths, List.filter_cons]
      cases hcnd : m.is_file && !ignoredPath m.rel ignore
      · simp
      · simp

/-- A successful collection collects exactly the eligible files. -/
theorem collectPaths_ok_eligible (allow : Bool) (ignore : List RelPath)
    (tree : List FSNode) (ps : List RelPath)
    (h : collectPaths allow ignore tree = .ok ps) :
    ps = eligiblePaths ignore tree := by
  have hchecks := collectPaths_ok_checks allow ignore tree ps h
  have h2 := collectPaths_all_ok allow ignore tree hchecks
  rw [h] at h2
  exact (Except.ok.injEq _ _).mp h2

/-- An invalid node anywhere in the traversal makes the collection loop
fail. -/
theorem collectPaths_error_of_bad (allow : Bool) (ignore : List RelPath) :
    ∀ (tree : List FSNode) (n : FSNode), n ∈ tree →
      (∀ e0, check_file_or_directory n allow ≠ .ok e0) →
      ∃ e, collectPaths allow ignore tree = .error e := by
  intro tree
  induction tree with
  | nil => intro n hn _; exact absurd hn (by simp)
  | cons m rest ih =>
      intro n hn hbad
      cases hc : check_file_or_directory m allow with
      | error e => exact ⟨e, by rw [collectPaths, hc]⟩
      | ok u =>
          cases u
          rcases List.mem_cons.mp hn with rfl | hn2
          · exact absurd hc (hbad ())
          · obtain ⟨e, he⟩ := ih n hn2 hbad
            exact ⟨e, by rw [collectPaths, hc, he]⟩

/-- A successful hashing phase covers exactly the collected paths, in
order. -/
theorem computeHashes_ok_paths (hasher : RelPath → Except String Digest) :
    ∀ (ps : List RelPath) (items : List FileManifestItem),
      computeHashes hasher ps = .ok items →
      items.map FileManifestItem.path = ps := by
  intro ps
  induction ps with
  | nil =>
      intro items h
      rw [computeHashes] at h
      obtain rfl := (Except.ok.injEq _ _).mp h
      rfl
  | cons p rest ih =>
      intro items h
      rw [computeHashes] at h
      cases hd : hasher p with
      | error e => rw [hd] at h; simp at h
      | ok d =>
          rw [hd] at h
          simp only [] at h
          cases hrec : computeHashes hasher rest with
          | error e => rw [hrec] at h; simp at h
          | ok items0 =>
              rw [hrec] at h
              obtain rfl := (Except.ok.injEq _ _).mp h
              simp [ih items0 hrec]

/-- A successful hashing phase implies every collected path hashed
successfully. -/
theorem computeHashes_ok_hashes (hasher : RelPath → Except String Digest) :
    ∀ (ps : List RelPath) (items : List FileManifestItem),
      computeHashes hasher ps = .ok items →
      ∀ p ∈ ps, ∃ d, hasher p = .ok d := by
  intro ps
  induction ps with
  | nil => intro items _ p hp; exact absurd hp (by simp)
  | cons q rest ih =>
      intro items h p hp
      rw [computeHashes] at h
      cases hd : hasher q with
      | error e => rw [hd] at h; simp at h
      | ok d =>
          rw [hd] at h
          simp only [] at h
          cases hrec : computeHashes hasher rest with
          | error e => rw [hrec] at h; simp at h
          | ok items0 =>
              rcases List.mem_cons.mp hp with rfl | hp2
              · exact ⟨d, hd⟩
              · exact ih items0 hrec p hp2

/-- When every collected path hashes successfully, the hashing phase
succeeds. -/
theorem computeHashes_all_ok (hasher : RelPath → Except String Digest) :
    ∀ (ps : List RelPath),
      (∀ p ∈ ps, ∃ d, hasher p = .ok d) →
      ∃ items, computeHashes hasher ps = .ok items := by
  intro ps
  induction ps with
  | nil => intro _; exact ⟨[], rfl⟩
  | cons p rest ih =>
      intro hok
      obtain ⟨d, hd⟩ := hok p (by simp)
      obtain ⟨items0, hitems⟩ := ih (fun q hq => hok q (by simp [hq]))
      exact ⟨⟨p, d⟩ :: items0, by rw [computeHashes, hd, hitems]⟩

/-- A successful serialization covers exactly the eligible files: the item
paths are the eligible paths, in collection order. -/
theorem serializeItems_ok_paths (allow : Bool) (hasher : RelPath → Except String Digest)
    (tree : List FSNode) (ignore : List RelPath) (items : List FileManifestItem)
    (h : serializeItems allow hasher tree ignore = .ok items) :
    items.map FileManifestItem.path = eligiblePaths ignore tree := by
  rw [serializeItems] at h
  cases hcol : collectPaths allow ignore tree with
  | error e => rw [hcol] at h; simp at h
  | ok ps =>
      rw [hcol] at h
      simp only [] at h
      cases hcomp : computeHashes hasher ps with
      | error e => rw [hcomp] at h; simp at h
      | ok items0 =>
          rw [hcomp] at h
          obtain rfl := (Except.ok.injEq _ _).mp h
          rw [computeHashes_ok_paths hasher ps items0 hcomp]
          exact collectPaths_ok_eligible allow ignore tree ps hcol

/-- An eligible path is never an ignored one. -/
theorem eligible_not_ignored (ignore : List RelPath) (tree : List FSNode) (p : RelPath)
    (hp : p ∈ eligiblePaths ignore tree) : ignoredPath p ignore = false := by
  simp only [eligiblePaths, List.mem_map] at hp
  obtain ⟨n, hn, rfl⟩ := hp
  have hf := (List.mem_filter.mp hn).2
  simp only [Bool.and_eq_true, Bool.not_eq_eq_eq_not, Bool.not_true] at hf
  exact hf.2

/-- C6: the ignore filter reports a path exactly when some ignore root's
component sequence is a prefix of the path's components (path-boundary
containment, never a string-prefix match), and consequently no item of a
successful serialization lies at or beneath an ignore root. -/
theorem ignore_boundary_containment :
    (∀ (p : RelPath) (roots : List RelPath),
      ignoredPath p roots = true ↔ ∃ q ∈ roots, q.isPrefixOf p = true) ∧
    (∀ (allow : Bool) (hasher : RelPath → Except String Digest) (tree : List FSNode)
      (ignore : List RelPath) (items : List FileManifestItem),
      serializeItems allow hasher tree ignore = .ok items →
      ∀ i ∈ items, ignoredPath i.path ignore = false) := by
  constructor
  · intro p roots
    simp [ignoredPath, relativeTo, List.any_eq_true]
  · intro allow hasher tree ignore items h i hi
    have hmap := serializeItems_ok_paths allow hasher tree ignore items h
    exact eligible_not_ignored ignore tree i.path
      (hmap ▸ List.mem_map_of_mem FileManifestItem.path hi)

/-- Witness for C6 at a concrete serialization: `foobar` is collected even
though `foo` is ignored (no string-prefix matching), and nothing under
`foo` is reported. -/
theorem ignore_boundary_containment_witness :
    ignoredPath [[102, 111, 111, 98, 97, 114]] [[[102, 111, 111]]] = false ∧
    ∀ i ∈ [(⟨[[102, 111, 111, 98, 97, 114]], ⟨"sha256", [3]⟩⟩ : FileManifestItem)],
      ignoredPath i.path [[[102, 111, 111]]] = false :=
  ⟨by decide,
   ignore_boundary_containment.2 false (fun _ => .ok ⟨"sha256", [3]⟩)
     [⟨[], false, false, true⟩, ⟨[[102, 111, 111]], false, false, true⟩,
      ⟨[[102, 111, 111, 98, 97, 114]], false, true, false⟩]
     [[[102, 111, 111]]]
     [⟨[[102, 111, 111, 98, 97, 114]], ⟨"sha256", [3]⟩⟩] (by decide)⟩

/-- C7: serialization validates every visited path and succeeds exactly
when every node passes validation and every eligible file hashes
successfully; a success always covers every eligible file — there is no
partial manifest. -/
theorem serialize_all_or_nothing (allow : Bool) (hasher : RelPath → Except String Digest)
    (tree : List FSNode) (ignore : List RelPath) :
    ((∃ items, serializeItems allow hasher tree ignore = .ok items) ↔
      ((∀ n ∈ tree, check_file_or_directory n allow = .ok ()) ∧
        (∀ p ∈ eligiblePaths ignore tree, ∃ d, hasher p = .ok d))) ∧
    (∀ items, serializeItems allow hasher tree ignore = .ok items →
      items.map FileManifestItem.path = eligiblePaths ignore tree) := by
  constructor
  · constructor
    · rintro ⟨items, h⟩
      have hmap := serializeItems_ok_paths allow hasher tree ignore items h
      rw [serializeItems] at h
      cases hcol : collectPaths allow ignore tree with
      | error e => rw [hcol] at h; simp at h
      | ok ps =>
          rw [hcol] at h
          simp only [] at h
          cases hcomp : computeHashes hasher ps with
          | error e => rw [hcomp] at h; simp at h
          | ok items0 =>
              refine ⟨collectPaths_ok_checks allow ignore tree ps hcol, ?hashes⟩
              rw [← collectPaths_ok_eligible allow ignore tree ps hcol]
              exact computeHashes_ok_hashes hasher ps items0 hcomp
    · rintro ⟨hchecks, hhash⟩
      have hcol := collectPaths_all_ok allow ignore tree hchecks
      obtain ⟨items, hcomp⟩ := computeHashes_all_ok hasher _ hhash
      refine ⟨items, ?ok⟩
      rw [serializeItems, hcol]
      simp only []
      rw [hcomp]
  · exact serializeItems_ok_paths allow hasher tree ignore

/-- Witness for C7: a valid two-node tree with a total hasher serializes
successfully. -/
theorem serialize_all_or_nothing_witness :
    ∃ items, serializeItems false (fun _ => .ok ⟨"sha256", [7]⟩)
      [⟨[], false, false, true⟩, ⟨[[97]], false, true, false⟩] [] = .ok items :=
  (serialize_all_or_nothing false (fun _ => .ok ⟨"sha256", [7]⟩)
      [⟨[], false, false, true⟩, ⟨[[97]], false, true, false⟩] []).1.mpr
    ⟨by decide, fun p _ => ⟨⟨"sha256", [7]⟩, rfl⟩⟩

/-- C9: validation is applied to every traversed path regardless of the
ignore filter: a disallowed symlink or special file inside an ignored
subtree still aborts the whole serialization with a path error. -/
theorem ignored_subtree_still_validated (allow : Bool)
    (hasher : RelPath → Except String Digest) (tree : List FSNode)
    (ignore : List RelPath) (n : FSNode) (hmem : n ∈ tree)
    (hign : ignoredPath n.rel ignore = true)
    (hbad : (n.is_symlink = true ∧ allow = false) ∨
      (n.is_file = false ∧ n.is_dir = false)) :
    ∃ e, serializeItems allow hasher tree ignore = .error (.invalidPath e) := by
  obtain ⟨e0, he0⟩ := check_error_of_bad n allow hbad
  obtain ⟨e2, he2⟩ := collectPaths_error_of_bad allow ignore tree n hmem
    (fun u hc => by rw [hc] at he0; simp at he0)
  exact ⟨e2, by rw [serializeItems, he2]⟩

/-- Witness for C9: a symlink beneath the ignored directory `s` still
fails the call. -/
theorem ignored_subtree_still_validated_witness :
    ∃ e, serializeItems false (fun _ => .ok ⟨"sha256", [0]⟩)
      [⟨[], false, false, true⟩, ⟨[[115]], false, false, true⟩,
       ⟨[[115], [97]], true, true, false⟩]
      [[[115]]] = .error (.invalidPath e) :=
  ignored_subtree_still_validated false (fun _ => .ok ⟨"sha256", [0]⟩)
    [⟨[], false, false, true⟩, ⟨[[115]], false, false, true⟩,
     ⟨[[115], [97]], true, true, false⟩]
    [[[115]]] ⟨[[115], [97]], true, true, false⟩ (by decide) (by decide)
    (Or.inl ⟨rfl, rfl⟩)

/-- C10: a model with no eligible file (all nodes valid, none a
non-ignored regular file) serializes without error: the itemized variant
returns an empty manifest and the aggregate variant hashes the empty
stream — the merge engine is reset and never updated. -/
theorem empty_model_serialization (allow : Bool)
    (hasher : RelPath → Except String Digest) (H : List Nat → Digest)
    (tree : List FSNode) (ignore : List RelPath)
    (hok : ∀ n ∈ tree, check_file_or_directory n allow = .ok ())
    (hempty : eligiblePaths ignore tree = []) :
    manifest_serialize allow hasher tree ignore = .ok ⟨[]⟩ ∧
    digest_serialize allow hasher H tree ignore = .ok ⟨H []⟩ ∧
    mergeLoop hashReset (sortItems []) = hashReset := by
  have hcol := collectPaths_all_ok allow ignore tree hok
  rw [hempty] at hcol
  have hser : serializeItems allow hasher tree ignore = .ok [] := by
    rw [serializeItems, hcol]
    rfl
  refine ⟨?mani, ?dige, rfl⟩
  · rw [manifest_serialize, hser]
    rfl
  · rw [digest_serialize, hser]
    rfl

/-- Witness for C10: a root directory with one empty subdirectory. -/
theorem empty_model_serialization_witness :
    manifest_serialize false (fun _ => .ok ⟨"sha256", [9]⟩)
      [⟨[], false, false, true⟩, ⟨[[100]], false, false, true⟩] [] = .ok ⟨[]⟩ ∧
    digest_serialize false (fun _ => .ok ⟨"sha256", [9]⟩) (fun l => ⟨"sha256", l⟩)
      [⟨[], false, false, true⟩, ⟨[[100]], false, false, true⟩] [] =
      .ok ⟨(fun l => (⟨"sha256", l⟩ : Digest)) []⟩ ∧
    mergeLoop hashReset (sortItems []) = hashReset :=
  empty_model_serialization false (fun _ => .ok ⟨"sha256", [9]⟩) (fun l => ⟨"sha256", l⟩)
    [⟨[], false, false, true⟩, ⟨[[100]], false, false, true⟩] [] (by decide) (by decide)
